import Mathlib

/-!
# Verification of the paid-statements snapshot-diff / grouping / subtotal engine

Shallow embedding of `script.py` (the current pipeline script of the
repository).  Rows are lists of cells; a cell is either a raw textual field
or a numeric value (the aggregation columns 7, 8, 10, 12 are converted to
numbers by `getNewEntries`, mirroring the in-place `float(...)` assignment).
The numeric domain of the program is modelled by exact rational numbers
(`Q` below, numerator and denominator in lowest terms), so every sum in the
development is the exact decimal sum.
-/

namespace PaidStatements

/-- An exact rational number: numerator and denominator in lowest terms
(denominator positive).  All constructions go through `mkQ`, which
normalizes, so equal values are structurally equal. -/
structure Q where
  num : Int
  den : Nat
deriving DecidableEq, Repr

/-- Construct the rational `n / d` in lowest terms (`d = 0` is never used
and maps to `0`). -/
def mkQ (n : Int) (d : Nat) : Q :=
  if d = 0 then ⟨0, 1⟩
  else
    let g := Nat.gcd n.natAbs d
    ⟨n / (g : Int), d / g⟩

/-- Exact addition of rationals. -/
def Q.add (a b : Q) : Q :=
  mkQ (a.num * (b.den : Int) + b.num * (a.den : Int)) (a.den * b.den)

instance : Add Q := ⟨Q.add⟩

instance : Zero Q := ⟨⟨0, 1⟩⟩

/-- Exact negation of a rational. -/
def Q.neg (a : Q) : Q := ⟨-a.num, a.den⟩

instance : Neg Q := ⟨Q.neg⟩

/-- Python `sum(...)`: left fold of exact addition starting from `0`. -/
def sumQ (l : List Q) : Q := l.foldl (fun a b => a + b) 0

/-- A field of a row: either the raw CSV text or a parsed numeric value
(the Python list holds `str` and `float` values side by side). -/
inductive Cell where
  | str : String → Cell
  | num : Q → Cell
deriving DecidableEq, Repr

abbrev Row := List Cell

/-- Whether a cell holds a parsed numeric value. -/
def Cell.isNum : Cell → Bool
  | .str _ => false
  | .num _ => true

/-- The raw text of a cell (numeric cells have no raw text left). -/
def cellStr : Cell → String
  | .str s => s
  | .num _ => ""

/-! ## Numeric parsing: `float(entry[i].replace(',',''))` -/

/-- `s.replace(',','')`: drop every comma of the string. -/
def stripCommas (s : String) : String :=
  String.mk (s.data.filter (fun c => c ≠ ','))

/-- Numeric value of a list of decimal digit characters. -/
def natOfDigits (l : List Char) : Nat :=
  l.foldl (fun n c => 10 * n + (c.toNat - 48)) 0

/-- Split a character list at the first decimal point, if any. -/
def splitDot : List Char → List Char × Option (List Char)
  | [] => ([], none)
  | c :: rest =>
    if c = '.' then ([], some rest)
    else
      let p := splitDot rest
      (c :: p.1, p.2)

/-- Python `float(...)` on an unsigned plain decimal literal (the only form
the feed produces: digits with an optional single decimal point).  The
value is the exact rational `intPart + fracPart / 10 ^ fracLen`. -/
def parseUnsignedDecimal (s : String) : Option Q :=
  match splitDot s.data with
  | (intPart, none) =>
    if intPart.all Char.isDigit && !intPart.isEmpty then
      some (mkQ (natOfDigits intPart : Int) 1)
    else none
  | (intPart, some fracPart) =>
    if ((intPart.all Char.isDigit && fracPart.all Char.isDigit)
          && !fracPart.contains '.')
        && !(intPart.isEmpty && fracPart.isEmpty) then
      some (mkQ ((natOfDigits intPart * 10 ^ fracPart.length + natOfDigits fracPart : Nat) : Int)
        (10 ^ fracPart.length))
    else none

/-- Python `float(...)` on a plain signed decimal literal. -/
def parseDecimal (s : String) : Option Q :=
  match s.data with
  | '-' :: rest => (parseUnsignedDecimal (String.mk rest)).map (fun q => -q)
  | '+' :: rest => parseUnsignedDecimal (String.mk rest)
  | _ => parseUnsignedDecimal s

/-! ## `getNewEntries` (script.py lines 93–119) -/

/-- The raw diff: `[row for row in newRows if tuple(row) not in oldRows]`.
Membership in the set of previous rows is by equality of the raw textual
tuple. -/
def newEntriesRaw (oldRows newRows : List (List String)) : List (List String) :=
  newRows.filter (fun row => decide (row ∉ oldRows))

/-- One step of the conversion loop `entry[i] = float(entry[i].replace(',',''))`:
reads the current cell at index `i`, which must still be raw text (Python
would raise on a second conversion because `float` has no `.replace`), and
overwrites it with the parsed number.  `none` models the raised exception. -/
def convertAt (e : List Cell) (i : Nat) : Option (List Cell) :=
  match e.getD i (Cell.str "") with
  | .str s => (parseDecimal (stripCommas s)).map (fun q => e.set i (Cell.num q))
  | .num _ => none

/-- The conversion loop `for i in [7, 8, 10, 12]: entry[i] = float(...)`
applied to one raw entry. -/
def convertEntry (entry : List String) : Option Row :=
  [7, 8, 10, 12].foldlM convertAt (entry.map Cell.str)

/-- `getNewEntries`: the raw diff of the two snapshots followed by the
in-place numeric conversion of every new entry; `none` models the fatal
exception raised by an unparsable numeric field. -/
def getNewEntries (oldRows newRows : List (List String)) : Option (List Row) :=
  (newEntriesRaw oldRows newRows).mapM convertEntry

/-! ## `splitBySaleType` (script.py lines 122–147) -/

/-- `row[0][:2]`: the two-character prefix of the leading field. -/
def saleKey (r : Row) : String :=
  (cellStr (r.getD 0 (Cell.str ""))).take 2

/-- One iteration of the `for row in rows` loop building the dictionary;
the dictionary is modelled as an association list in insertion order
(Python dicts iterate in insertion order). -/
def splitStep (d : List (String × List Row)) (row : Row) : List (String × List Row) :=
  let saleType := saleKey row
  if saleType ∈ d.map Prod.fst then
    d.map (fun p => if p.1 = saleType then (p.1, p.2 ++ [row]) else p)
  else
    d ++ [(saleType, [row])]

/-- `splitBySaleType`: bucket the rows by the two-character prefix of the
leading field, in insertion order of first key occurrence. -/
def splitBySaleType (rows : List Row) : List (String × List Row) :=
  rows.foldl splitStep []

/-! ## `addSubtotals` (script.py lines 150–217) -/

/-- Leading cell of a row (`rows[j][0]`; empty rows never occur in a run). -/
def cell0 (r : Row) : Cell := r.getD 0 (Cell.str "")

/-- Numeric value of column `c` of a row (the summed cells are always
numeric in an actual run, where this is Python's float addition). -/
def numAt (r : Row) (c : Nat) : Q :=
  match r.getD c (Cell.str "") with
  | .num q => q
  | .str _ => 0

/-- `sum(rows[k][c] for k in range(kMin, kMax))`. -/
def rangeSum (rows : List Row) (c kMin kMax : Nat) : Q :=
  sumQ ((List.range' kMin (kMax - kMin)).map (fun k => numAt (rows.getD k []) c))

/-- The literal subtotal template
`['Subtotal:','','','','','','','7','8','','10','','12']`. -/
def subtotalTemplate : Row :=
  [.str "Subtotal:", .str "", .str "", .str "", .str "", .str "", .str "",
   .str "7", .str "8", .str "", .str "10", .str "", .str "12"]

/-- The template with the four computed sums assigned at indices 7, 8, 10, 12. -/
def subtotalRowOf (a b c d : Q) : Row :=
  ((((subtotalTemplate.set 7 (.num a)).set 8 (.num b)).set 10 (.num c)).set 12 (.num d))

/-- `subtotalRow[c] = sum(rows[k][c] for k in range(kMin, kMax))` for the four
aggregation columns. -/
def mkSubtotalRow (rows : List Row) (kMin kMax : Nat) : Row :=
  subtotalRowOf (rangeSum rows 7 kMin kMax) (rangeSum rows 8 kMin kMax)
    (rangeSum rows 10 kMin kMax) (rangeSum rows 12 kMin kMax)

/-- The buffer (separator) row `['-'] * 13`. -/
def bufferRow : Row := List.replicate 13 (Cell.str "-")

/-- `kMin = 0 if subtotalRows == [] else subtotalRows[-1] + 1`. -/
def lastPlus (subtotalRows : List Nat) : Nat :=
  match subtotalRows.getLast? with
  | none => 0
  | some t => t + 1

/-- One iteration of the `while i < numRows` loop of `addSubtotals` at
index `i`: scan the row at the effective position `j = i + 2 *
len(subtotalRows)` of the logically growing list and, at a leading-key
boundary, insert the subtotal and buffer rows.  State: the mutated `rows`,
the recorded buffer positions `subtotalRows` and the tracked
`currentSaleNo`. -/
def addSubtotalsStep (st : List Row × List Nat × Cell) (i : Nat) :
    List Row × List Nat × Cell :=
  let rows := st.1
  let subtotalRows := st.2.1
  let currentSaleNo := st.2.2
  let j := i + 2 * subtotalRows.length
  if cell0 (rows.getD j []) ≠ currentSaleNo then
    let kMin := lastPlus subtotalRows
    let sub := mkSubtotalRow rows kMin j
    let rows1 := List.insertIdx (j + 1) bufferRow (List.insertIdx j sub rows)
    (rows1, subtotalRows ++ [j + 1], cell0 (rows1.getD (j + 2) []))
  else st

/-- The `while i < numRows` loop of `addSubtotals`: the index is
incremented unconditionally on every iteration, so the loop is the fold of
its body over `i in range(numRows)`. -/
def addSubtotalsLoop (numRows : Nat) (rows : List Row) (subtotalRows : List Nat)
    (currentSaleNo : Cell) : List Row × List Nat × Cell :=
  (List.range numRows).foldl addSubtotalsStep (rows, subtotalRows, currentSaleNo)

/-- The body of `addSubtotals` for one sale type's row list: run the boundary
loop, then append the final subtotal row. -/
def addSubtotalsGroup (rows : List Row) : List Row :=
  let numRows := rows.length
  let st := addSubtotalsLoop numRows rows [] (cell0 (rows.headD []))
  let kMin := lastPlus st.2.1
  let kMax := numRows + 2 * st.2.1.length
  st.1 ++ [mkSubtotalRow st.1 kMin kMax]

/-- `addSubtotals`: apply the subtotal insertion to every sale type of the
dictionary. -/
def addSubtotals (rowDict : List (String × List Row)) : List (String × List Row) :=
  rowDict.map (fun p => (p.1, addSubtotalsGroup p.2))

/-! ## Specification-side view of `addSubtotals`

The decomposition of a group into maximal contiguous runs of equal leading
key, and the interleaved subtotal/separator rendering, stated directly; the
refinement theorem `addSubtotalsGroup_eq` below proves the imperative loop
equal to this view. -/

/-- Exact sum of aggregation column `c` over a run of data rows. -/
def colSum (run : List Row) (c : Nat) : Q :=
  sumQ (run.map (fun r => numAt r c))

/-- The subtotal row closing a run: the template with the four column sums
of the run. -/
def subtotalOf (run : List Row) : Row :=
  subtotalRowOf (colSum run 7) (colSum run 8) (colSum run 10) (colSum run 12)

/-- Helper splitting a list of rows into maximal runs of equal leading key;
`acc` is the run being accumulated and `k` its key. -/
def runsAux (k : Cell) (acc : List Row) : List Row → List (List Row)
  | [] => [acc]
  | r :: rs =>
    if cell0 r = k then runsAux k (acc ++ [r]) rs
    else acc :: runsAux (cell0 r) [r] rs

/-- The maximal contiguous runs of equal leading key (field 0) of a row
list, in order. -/
def runsBy : List Row → List (List Row)
  | [] => []
  | r :: rs => runsAux (cell0 r) [r] rs

/-- The rendered output of the closed runs: each run followed by its
subtotal row and a buffer row.  `acc`/`k` is the run currently open. -/
def closedPart (k : Cell) (acc : List Row) : List Row → List Row
  | [] => []
  | r :: rs =>
    if cell0 r = k then closedPart k (acc ++ [r]) rs
    else (acc ++ [subtotalOf acc, bufferRow]) ++ closedPart (cell0 r) [r] rs

/-- The run still open after the scan (the last run; its subtotal is
appended after the loop). -/
def openPart (k : Cell) (acc : List Row) : List Row → List Row
  | [] => acc
  | r :: rs =>
    if cell0 r = k then openPart k (acc ++ [r]) rs
    else openPart (cell0 r) [r] rs

/-- Rendering of a run decomposition: every run followed by its subtotal
row, with a buffer row after each subtotal except the final one. -/
def renderRuns : List (List Row) → List Row
  | [] => []
  | [run] => run ++ [subtotalOf run]
  | run :: rest => run ++ subtotalOf run :: bufferRow :: renderRuns rest

/-- `runs` is the decomposition of `rows` into maximal contiguous runs of
equal leading key: the runs concatenate back to `rows`, are non-empty, have
a constant leading key, and adjacent runs have different keys. -/
def IsRunDecomposition (rows : List Row) (runs : List (List Row)) : Prop :=
  runs.flatten = rows ∧ (∀ run ∈ runs, run ≠ []) ∧
    (∀ run ∈ runs, ∀ r ∈ run, cell0 r = cell0 (run.headD [])) ∧
    List.Chain' (fun a b => cell0 (a.headD []) ≠ cell0 (b.headD [])) runs

/-- A row whose leading cell is the literal subtotal label. -/
def isSubtotalRow (r : Row) : Bool :=
  decide (cell0 r = Cell.str "Subtotal:")

/-- The group keys in order of first occurrence in the input, continuing
from the already seen keys `ks` (statement-side notion used to express the
iteration order of the dictionary). -/
def firstKeysFrom (rows : List Row) (ks : List String) : List String :=
  rows.foldl (fun a r => if saleKey r ∈ a then a else a ++ [saleKey r]) ks

/-- The group keys in order of first occurrence in the input. -/
def firstKeys (rows : List Row) : List String := firstKeysFrom rows []

/-! ## CSV serialization (`createAttachment`, script.py lines 220–247)

`csv.writer` stringifies every value with `str(...)`; a float is rendered
in plain decimal form (shortest form, at least one fractional digit, no
grouping separators), a string is written as is, quoted only when it
contains a delimiter, quote or newline. -/

/-- Left-pad a digit string with zeros to length `k`. -/
def padZeros (s : String) (k : Nat) : String :=
  String.mk (List.replicate (k - s.length) '0') ++ s

/-- `q * 10 ^ k` in lowest terms (used to find the decimal form of a
rational). -/
def mulPow10 (q : Q) (k : Nat) : Q :=
  mkQ (q.num * ((10 ^ k : Nat) : Int)) q.den

/-- Python `str(...)` of a float arising from a plain decimal literal:
minimal decimal form with at least one fractional digit, no grouping
separators (e.g. `1234.5`, `1234.0`).  Modelled for decimal-valued
rationals of moderate size, which is all the parser produces. -/
def pyFloatStr (q : Q) : String :=
  let sign := if q.num < 0 then "-" else ""
  let a : Q := ⟨(q.num.natAbs : Int), q.den⟩
  match (List.range 31).find? (fun k => (mulPow10 a k).den = 1) with
  | none => sign ++ toString a.num ++ "/" ++ toString a.den
  | some k =>
    let n := (mulPow10 a k).num.toNat
    if k = 0 then sign ++ toString n ++ ".0"
    else sign ++ toString (n / 10 ^ k) ++ "." ++ padZeros (toString (n % 10 ^ k)) k

/-- `str(...)` of one cell as written by `csv.writer`. -/
def cellRender : Cell → String
  | .str s => s
  | .num q => pyFloatStr q

/-- Minimal CSV quoting of one field (default dialect of `csv.writer`). -/
def csvField (s : String) : String :=
  if s.data.any (fun c => c = ',' || c = '"' || c = '\n' || c = '\r') then
    "\"" ++ String.mk (s.data.foldr (fun c acc => if c = '"' then '"' :: '"' :: acc else c :: acc) []) ++ "\""
  else s

/-- Join strings with a separator. -/
def joinSep (sep : String) : List String → String
  | [] => ""
  | [s] => s
  | s :: rest => s ++ sep ++ joinSep sep rest

/-- One CSV record line (`\r\n` terminated, the default dialect). -/
def csvLine (cells : List String) : String :=
  joinSep "," (cells.map csvField) ++ "\r\n"

/-- `createAttachment`: the serialized artifact, header row first, then one
record per row. -/
def createAttachment (headers : List String) (rows : List Row) : String :=
  csvLine headers ++ (rows.map (fun r => csvLine (r.map cellRender))).foldl (fun a b => a ++ b) ""

/-! ## Orchestration (`main`, `renameFiles`, `logAndExit`, script.py 250–398) -/

/-- The static recipient lookup table of the script. -/
def recipientsDict : List (String × List String) :=
  [("CV", ["jamie.brine@brightwells.com"]),
   ("VT", ["jamie.brine@brightwells.com"]),
   ("CC", ["jamie.brine@brightwells.com"]),
   ("PM", ["jamie.brine@brightwells.com"]),
   ("master", ["jamie.brine@brightwells.com"])]

/-- `recipientsDict[key]`: `none` models the `KeyError` raised for an
unmapped key. -/
def lookupRecipients (k : String) : Option (List String) :=
  (recipientsDict.find? (fun p => p.1 == k)).map Prod.snd

/-- The inter-group separator row `['~~~~~~'] * 14` of the master document. -/
def masterSeparatorRow : Row := List.replicate 14 (Cell.str "~~~~~~")

/-- The two snapshot artifacts on disk (contents of `old.csv` / `new.csv`,
each a list of raw CSV records; `none` = file absent). -/
structure FS where
  oldCsv : Option (List (List String))
  newCsv : Option (List (List String))
deriving DecidableEq, Repr

/-- The external collaborators' outcomes for one run: whether `query.sql`
is readable, the SQL result (`none` = query failure), and whether each
transport send succeeds. -/
structure Env where
  queryOk : Bool
  sqlResult : Option (List (List String) × List String)
  groupSendOk : String → Bool
  masterSendOk : Bool

/-- Observable run state: the snapshot files and the dispatch log (one
`(key, attachment rows)` entry per successful `sendEmail` call). -/
structure RunState where
  fs : FS
  sent : List (String × List Row)
deriving DecidableEq, Repr

/-- The `for key in rowDictWithSubtotals` loop: look up the recipients
(`KeyError` aborts), send the group report (failure aborts), and append the
group's rows plus a master separator row to the master accumulator. -/
def dispatchLoop (sendOk : String → Bool) :
    List (String × List Row) → RunState → List Row → Except RunState (RunState × List Row)
  | [], st, master => Except.ok (st, master)
  | (k, g) :: rest, st, master =>
    match lookupRecipients k with
    | none => Except.error st
    | some _ =>
      if sendOk k then
        dispatchLoop sendOk rest { st with sent := st.sent ++ [(k, g)] }
          (master ++ g ++ [masterSeparatorRow])
      else Except.error st

/-- `renameFiles`: delete `old.csv` if present, then rename `new.csv` to
`old.csv` if present. -/
def renameFiles (fs : FS) : FS :=
  let fs1 : FS := { fs with oldCsv := none }
  match fs1.newCsv with
  | some d => { oldCsv := some d, newCsv := none }
  | none => fs1

/-- The `try` body of `main`: load the query, query the data source, write
`new.csv`, diff, group, aggregate, dispatch every group then the master
document, and finally rotate the snapshots.  `Except.error` carries the
state observed when a stage raised. -/
def mainPipeline (env : Env) (fs : FS) : Except RunState RunState :=
  if env.queryOk then
    match env.sqlResult with
    | none => Except.error ⟨fs, []⟩
    | some (rows, headers) =>
      let fs1 : FS := { fs with newCsv := some (headers :: rows) }
      match fs1.oldCsv with
      | none => Except.error ⟨fs1, []⟩
      | some oldRows =>
        match getNewEntries oldRows (headers :: rows) with
        | none => Except.error ⟨fs1, []⟩
        | some entries =>
          let groups := addSubtotals (splitBySaleType entries)
          match dispatchLoop env.groupSendOk groups ⟨fs1, []⟩ [] with
          | Except.error st => Except.error st
          | Except.ok (st, masterRows) =>
            match lookupRecipients "master" with
            | none => Except.error st
            | some _ =>
              if env.masterSendOk then
                let st2 : RunState := { st with sent := st.sent ++ [("master", masterRows)] }
                Except.ok { st2 with fs := renameFiles st2.fs }
              else Except.error st
  else Except.error ⟨fs, []⟩

/-- The log entry prepended by `logAndExit` (timestamp and traceback are
opaque inputs from the environment). -/
def logEntry (timestamp : String) (isError : Bool) (trace : String) : String :=
  (if isError then "[" ++ timestamp ++ "] ERROR:\n" ++ trace
   else "[" ++ timestamp ++ "] SUCCESS: Script completed successfully.\n")
    ++ String.mk (List.replicate 80 '-') ++ "\n"

/-- `logAndExit`: compute the exit code from whether an exception was
passed, try to prepend the log entry (a failing log write leaves the log
unchanged and only prints), and exit with the code either way (the
`finally` block).  Returns `(exit code, log file content)`. -/
def logAndExit (isError logWriteFails : Bool) (timestamp trace oldLog : String) :
    Nat × String :=
  let exitCode := if isError then 1 else 0
  if logWriteFails then (exitCode, oldLog)
  else (exitCode, logEntry timestamp isError trace ++ oldLog)

/-- `main`: run the pipeline; on success call `logAndExit()` (exit 0), on
any exception call `logAndExit(e)` (exit 1).  Returns the final snapshot
state, the process exit code and the log content. -/
def mainRun (env : Env) (fs : FS) (logWriteFails : Bool) (timestamp trace oldLog : String) :
    FS × Nat × String :=
  match mainPipeline env fs with
  | Except.ok st =>
    let r := logAndExit false logWriteFails timestamp trace oldLog
    (st.fs, r.1, r.2)
  | Except.error st =>
    let r := logAndExit true logWriteFails timestamp trace oldLog
    (st.fs, r.1, r.2)

/-! ## Concrete witness data -/

/-- A concrete raw snapshot record used by the witnesses. -/
def wRaw : List String :=
  ["CV001", "a", "b", "c", "d", "e", "f", "1,234.50", "2.00", "g", "3.00", "h", "4.00"]

/-- The converted form of `wRaw`. -/
def wConv : Row :=
  [.str "CV001", .str "a", .str "b", .str "c", .str "d", .str "e", .str "f",
   .num (mkQ 2469 2), .num (mkQ 2 1), .str "g", .num (mkQ 3 1), .str "h", .num (mkQ 4 1)]

/-- The subtotal row closing the single run of the witness group. -/
def wSub : Row :=
  [.str "Subtotal:", .str "", .str "", .str "", .str "", .str "", .str "",
   .num (mkQ 2469 2), .num (mkQ 2 1), .str "", .num (mkQ 3 1), .str "", .num (mkQ 4 1)]

/-- A run environment in which every external collaborator succeeds. -/
def wEnv : Env := ⟨true, some ([wRaw], ["h"]), fun _ => true, true⟩

/-- A run environment in which the master dispatch fails. -/
def wEnvFail : Env := ⟨true, some ([wRaw], ["h"]), fun _ => true, false⟩

/-- The initial snapshot state of the witness runs. -/
def wFS : FS := ⟨some [["h"]], none⟩

/-- The final state of the fully successful witness run. -/
def wSt : RunState :=
  ⟨⟨some [["h"], wRaw], none⟩,
   [("CV", [wConv, wSub]),
    ("master", [wConv, wSub, masterSeparatorRow])]⟩

/-- The state observed when the witness run fails at the master dispatch. -/
def wStFail : RunState :=
  ⟨⟨some [["h"]], some [["h"], wRaw]⟩, [("CV", [wConv, wSub])]⟩

/-! # Theorems -/

/-! ## C1 and C2: the subtotal aggregator refines the run-based rendering -/

theorem getD_append_cons {α : Type} (l1 : List α) (x : α) (l2 : List α) (d : α) :
    (l1 ++ x :: l2).getD l1.length d = x := by
  rw [List.getD_append_right l1 (x :: l2) d l1.length (Nat.le_refl _)]
  simp

theorem insertIdx_at_length {α : Type} :
    ∀ (l1 l2 : List α) (x : α),
      List.insertIdx l1.length x (l1 ++ l2) = l1 ++ x :: l2 := by
  intro l1
  induction l1 with
  | nil => intro l2 x; exact List.insertIdx_zero l2 x
  | cons a t ih =>
    intro l2 x
    show List.insertIdx (t.length + 1) x (a :: (t ++ l2)) = a :: (t ++ x :: l2)
    rw [List.insertIdx_succ_cons, ih]

theorem lastPlus_concat (strs : List Nat) (x : Nat) :
    lastPlus (strs ++ [x]) = x + 1 := by
  simp [lastPlus, List.getLast?_concat]

theorem map_range'_numAt :
    ∀ (l2 l1 l3 : List Row) (c : Nat),
      (List.range' l1.length l2.length).map
          (fun k => numAt ((l1 ++ (l2 ++ l3)).getD k []) c)
        = l2.map (fun r => numAt r c) := by
  intro l2
  induction l2 with
  | nil => intro l1 l3 c; simp
  | cons x l2' ih =>
    intro l1 l3 c
    simp only [List.length_cons]
    rw [List.range'_succ, List.map_cons, List.map_cons]
    congr 1
    · rw [show l1 ++ ((x :: l2') ++ l3) = l1 ++ x :: (l2' ++ l3) by simp]
      rw [getD_append_cons]
    · simpa using ih (l1 ++ [x]) l3 c

theorem rangeSum_append (l1 l2 l3 : List Row) (c : Nat) :
    rangeSum (l1 ++ (l2 ++ l3)) c l1.length (l1.length + l2.length) = colSum l2 c := by
  unfold rangeSum colSum
  rw [Nat.add_sub_cancel_left, map_range'_numAt]

theorem mkSubtotalRow_eq (l1 l2 l3 : List Row) :
    mkSubtotalRow (l1 ++ (l2 ++ l3)) l1.length (l1.length + l2.length)
      = subtotalOf l2 := by
  unfold mkSubtotalRow subtotalOf
  rw [rangeSum_append, rangeSum_append, rangeSum_append, rangeSum_append]

theorem closedPart_cons_eq {r : Row} {k : Cell} (acc rs : List Row) (h : cell0 r = k) :
    closedPart k acc (r :: rs) = closedPart k (acc ++ [r]) rs := by
  simp [closedPart, h]

theorem closedPart_cons_ne {r : Row} {k : Cell} (acc rs : List Row) (h : ¬cell0 r = k) :
    closedPart k acc (r :: rs)
      = (acc ++ [subtotalOf acc, bufferRow]) ++ closedPart (cell0 r) [r] rs := by
  simp [closedPart, h]

theorem openPart_cons_eq {r : Row} {k : Cell} (acc rs : List Row) (h : cell0 r = k) :
    openPart k acc (r :: rs) = openPart k (acc ++ [r]) rs := by
  simp [openPart, h]

theorem openPart_cons_ne {r : Row} {k : Cell} (acc rs : List Row) (h : ¬cell0 r = k) :
    openPart k acc (r :: rs) = openPart (cell0 r) [r] rs := by
  simp [openPart, h]

/-- The boundary-scan loop, started on any well-formed intermediate state,
computes the rendering of the closed runs followed by the still-open run:
`out` is the already rendered prefix, `run` the open run (all keys equal to
`currentSaleNo`), `rest` the original rows not yet scanned. -/
theorem loop_spec :
    ∀ (rest run out : List Row) (strs : List Nat) (cur : Cell) (i : Nat),
      (∀ r ∈ run, cell0 r = cur) →
      out.length + run.length = i + 2 * strs.length →
      lastPlus strs = out.length →
      ∃ strs2 cur2,
        (List.range' i rest.length).foldl addSubtotalsStep
            (out ++ (run ++ rest), strs, cur)
          = (out ++ (closedPart cur run rest ++ openPart cur run rest), strs2, cur2) ∧
        lastPlus strs2 = out.length + (closedPart cur run rest).length ∧
        out.length + ((closedPart cur run rest).length + (openPart cur run rest).length)
          = i + rest.length + 2 * strs2.length := by
  intro rest
  induction rest with
  | nil =>
    intro run out strs cur i hkeys h4 h5
    refine ⟨strs, cur, ?_, ?_, ?_⟩
    · simp [closedPart, openPart]
    · simpa [closedPart] using h5
    · simp only [closedPart, openPart, List.length_nil, List.length_cons]
      omega
  | cons r rs ih =>
    intro run out strs cur i hkeys h4 h5
    simp only [List.length_cons]
    rw [List.range'_succ, List.foldl_cons]
    have hj2 : i + 2 * strs.length = (out ++ run).length := by
      simp only [List.length_append]; omega
    have hget : (out ++ (run ++ r :: rs)).getD (i + 2 * strs.length) [] = r := by
      rw [show out ++ (run ++ r :: rs) = (out ++ run) ++ (r :: rs) by simp, hj2]
      exact getD_append_cons (out ++ run) r rs []
    by_cases hre : cell0 r = cur
    · have hstep : addSubtotalsStep (out ++ (run ++ r :: rs), strs, cur) i
          = (out ++ (run ++ r :: rs), strs, cur) := by
        simp only [addSubtotalsStep]
        rw [hget, if_neg (not_not_intro hre)]
      rw [hstep]
      have hkeys2 : ∀ x ∈ run ++ [r], cell0 x = cur := by
        intro x hx
        rcases List.mem_append.mp hx with hx | hx
        · exact hkeys x hx
        · rw [List.mem_singleton.mp hx]; exact hre
      obtain ⟨strs2, cur2, hf, hl, hlen⟩ :=
        ih (run ++ [r]) out strs cur (i + 1) hkeys2
          (by simp only [List.length_append, List.length_cons, List.length_nil]; omega) h5
      refine ⟨strs2, cur2, ?_, ?_, ?_⟩
      · rw [show out ++ (run ++ r :: rs) = out ++ ((run ++ [r]) ++ rs) by simp]
        rw [hf, closedPart_cons_eq _ _ hre, openPart_cons_eq _ _ hre]
      · rw [closedPart_cons_eq _ _ hre]; exact hl
      · rw [closedPart_cons_eq _ _ hre, openPart_cons_eq _ _ hre]
        omega
    · have hsub : mkSubtotalRow (out ++ (run ++ r :: rs)) (lastPlus strs)
          (i + 2 * strs.length) = subtotalOf run := by
        rw [h5, show i + 2 * strs.length = out.length + run.length from h4.symm]
        exact mkSubtotalRow_eq out run (r :: rs)
      have hins : List.insertIdx (i + 2 * strs.length + 1) bufferRow
          (List.insertIdx (i + 2 * strs.length) (subtotalOf run)
            (out ++ (run ++ r :: rs)))
          = (out ++ (run ++ [subtotalOf run, bufferRow])) ++ (r :: rs) := by
        rw [show out ++ (run ++ r :: rs) = (out ++ run) ++ (r :: rs) by simp, hj2]
        rw [insertIdx_at_length (out ++ run) (r :: rs) (subtotalOf run)]
        rw [show (out ++ run) ++ (subtotalOf run) :: r :: rs
            = ((out ++ run) ++ [subtotalOf run]) ++ (r :: rs) by simp]
        rw [show (out ++ run).length + 1 = ((out ++ run) ++ [subtotalOf run]).length by
          simp only [List.length_append, List.length_cons, List.length_nil]]
        rw [insertIdx_at_length]
        simp
      have hget2 : ((out ++ (run ++ [subtotalOf run, bufferRow])) ++ (r :: rs)).getD
          (i + 2 * strs.length + 2) [] = r := by
        rw [show i + 2 * strs.length + 2
            = (out ++ (run ++ [subtotalOf run, bufferRow])).length by
          simp only [List.length_append, List.length_cons, List.length_nil]; omega]
        exact getD_append_cons _ r rs []
      have hstep : addSubtotalsStep (out ++ (run ++ r :: rs), strs, cur) i
          = ((out ++ (run ++ [subtotalOf run, bufferRow])) ++ (r :: rs),
             strs ++ [i + 2 * strs.length + 1], cell0 r) := by
        simp only [addSubtotalsStep]
        rw [hget, if_pos hre, hsub, hins, hget2]
      rw [hstep]
      obtain ⟨strs2, cur2, hf, hl, hlen⟩ :=
        ih [r] (out ++ (run ++ [subtotalOf run, bufferRow]))
          (strs ++ [i + 2 * strs.length + 1]) (cell0 r) (i + 1)
          (by intro x hx; rw [List.mem_singleton.mp hx])
          (by simp only [List.length_append, List.length_cons, List.length_nil]; omega)
          (by rw [lastPlus_concat]
              simp only [List.length_append, List.length_cons, List.length_nil]
              omega)
      refine ⟨strs2, cur2, ?_, ?_, ?_⟩
      · rw [show (out ++ (run ++ [subtotalOf run, bufferRow])) ++ (r :: rs)
            = (out ++ (run ++ [subtotalOf run, bufferRow])) ++ ([r] ++ rs) by simp]
        rw [hf, closedPart_cons_ne _ _ hre, openPart_cons_ne _ _ hre]
        simp
      · rw [closedPart_cons_ne _ _ hre]
        rw [hl]
        simp only [List.length_append, List.length_cons, List.length_nil]
        omega
      · rw [closedPart_cons_ne _ _ hre, openPart_cons_ne _ _ hre]
        simp only [List.length_append, List.length_cons, List.length_nil] at hlen ⊢
        omega

theorem runsAux_ne_nil : ∀ (l : List Row) (k : Cell) (acc : List Row),
    runsAux k acc l ≠ [] := by
  intro l
  induction l with
  | nil => intro k acc; simp [runsAux]
  | cons r rs ih =>
    intro k acc
    by_cases h : cell0 r = k
    · simp only [runsAux, if_pos h]
      exact ih k (acc ++ [r])
    · simp [runsAux, if_neg h]

theorem runsAux_flatten : ∀ (l : List Row) (k : Cell) (acc : List Row),
    (runsAux k acc l).flatten = acc ++ l := by
  intro l
  induction l with
  | nil => intro k acc; simp [runsAux]
  | cons r rs ih =>
    intro k acc
    by_cases h : cell0 r = k
    · simp only [runsAux, if_pos h]
      rw [ih]
      simp
    · simp only [runsAux, if_neg h, List.flatten_cons]
      rw [ih]
      simp

theorem renderRuns_decomp : ∀ (l : List Row) (k : Cell) (acc : List Row),
    renderRuns (runsAux k acc l)
      = closedPart k acc l ++ openPart k acc l ++ [subtotalOf (openPart k acc l)] := by
  intro l
  induction l with
  | nil => intro k acc; simp [runsAux, renderRuns, closedPart, openPart]
  | cons r rs ih =>
    intro k acc
    by_cases h : cell0 r = k
    · simp only [runsAux, if_pos h]
      rw [ih, closedPart_cons_eq _ _ h, openPart_cons_eq _ _ h]
    · simp only [runsAux, if_neg h]
      obtain ⟨b, t, hbt⟩ := List.exists_cons_of_ne_nil (runsAux_ne_nil rs (cell0 r) [r])
      rw [hbt]
      show acc ++ subtotalOf acc :: bufferRow :: renderRuns (b :: t) = _
      rw [← hbt, ih (cell0 r) [r]]
      rw [closedPart_cons_ne _ _ h, openPart_cons_ne _ _ h]
      simp

/-- The imperative index-shifting subtotal loop refines the run-based
rendering: for every non-empty group, `addSubtotals` produces exactly the
rows of the group interleaved with one subtotal row per maximal run (each
followed by a buffer row except the final one). -/
theorem addSubtotalsGroup_eq (rows : List Row) (hne : rows ≠ []) :
    addSubtotalsGroup rows = renderRuns (runsBy rows) := by
  obtain ⟨r, rs, rfl⟩ := List.exists_cons_of_ne_nil hne
  obtain ⟨strs2, cur2, hf, hl, hlen⟩ :=
    loop_spec (r :: rs) [] [] [] (cell0 r) 0 (by simp) (by simp) (by simp [lastPlus])
  simp only [List.nil_append, List.length_nil, Nat.zero_add] at hf hl hlen
  have hC : closedPart (cell0 r) [] (r :: rs) = closedPart (cell0 r) [r] rs := by
    rw [closedPart_cons_eq _ _ rfl]
    simp
  have hO : openPart (cell0 r) [] (r :: rs) = openPart (cell0 r) [r] rs := by
    rw [openPart_cons_eq _ _ rfl]
    simp
  unfold addSubtotalsGroup addSubtotalsLoop
  simp only [List.range_eq_range', List.headD_cons]
  rw [hf]
  dsimp only
  rw [hl, show (r :: rs).length + 2 * strs2.length
      = (closedPart (cell0 r) [] (r :: rs)).length
        + (openPart (cell0 r) [] (r :: rs)).length from by omega]
  rw [show closedPart (cell0 r) [] (r :: rs) ++ openPart (cell0 r) [] (r :: rs)
      = closedPart (cell0 r) [] (r :: rs) ++ (openPart (cell0 r) [] (r :: rs) ++ [])
      from by simp]
  rw [mkSubtotalRow_eq]
  show _ = renderRuns (runsAux (cell0 r) [r] rs)
  rw [renderRuns_decomp, hC, hO]
  simp

theorem headD_mem {l : List Row} (h : l ≠ []) : l.headD [] ∈ l := by
  cases l with
  | nil => exact absurd rfl h
  | cons a t => exact List.mem_cons_self a t

theorem runsAux_head : ∀ (l : List Row) (k : Cell) (acc : List Row),
    ∃ t rest, runsAux k acc l = (acc ++ t) :: rest := by
  intro l
  induction l with
  | nil => intro k acc; exact ⟨[], [], by simp [runsAux]⟩
  | cons r rs ih =>
    intro k acc
    by_cases h : cell0 r = k
    · obtain ⟨t, rest, ht⟩ := ih k (acc ++ [r])
      refine ⟨[r] ++ t, rest, ?_⟩
      simp only [runsAux, if_pos h]
      rw [ht]
      simp
    · exact ⟨[], runsAux (cell0 r) [r] rs, by simp [runsAux, if_neg h]⟩

theorem runsAux_props :
    ∀ (l : List Row) (k : Cell) (acc : List Row), acc ≠ [] → (∀ x ∈ acc, cell0 x = k) →
      (∀ run ∈ runsAux k acc l,
        run ≠ [] ∧ ∀ x ∈ run, cell0 x = cell0 (run.headD [])) ∧
      List.Chain' (fun a b => cell0 (a.headD []) ≠ cell0 (b.headD []))
        (runsAux k acc l) := by
  intro l
  induction l with
  | nil =>
    intro k acc hne hkey
    constructor
    · intro run hrun
      simp only [runsAux, List.mem_singleton] at hrun
      subst hrun
      refine ⟨hne, ?_⟩
      intro x hx
      rw [hkey x hx, hkey _ (headD_mem hne)]
    · simp [runsAux]
  | cons r rs ih =>
    intro k acc hne hkey
    by_cases h : cell0 r = k
    · simp only [runsAux, if_pos h]
      refine ih k (acc ++ [r]) (by simp) ?_
      intro x hx
      rcases List.mem_append.mp hx with hx | hx
      · exact hkey x hx
      · rw [List.mem_singleton.mp hx]; exact h
    · simp only [runsAux, if_neg h]
      obtain ⟨hruns, hchain⟩ :=
        ih (cell0 r) [r] (by simp) (by intro x hx; rw [List.mem_singleton.mp hx])
      constructor
      · intro run hrun
        rcases List.mem_cons.mp hrun with rfl | hrun
        · refine ⟨hne, ?_⟩
          intro x hx
          rw [hkey x hx, hkey _ (headD_mem hne)]
        · exact hruns run hrun
      · rw [List.chain'_cons']
        refine ⟨?_, hchain⟩
        intro y hy
        obtain ⟨t0, rest0, ht0⟩ := runsAux_head rs (cell0 r) [r]
        rw [ht0] at hy
        simp only [List.head?_cons, Option.mem_def, Option.some.injEq] at hy
        subst hy
        rw [hkey _ (headD_mem hne)]
        simp only [List.cons_append, List.headD_cons]
        exact fun hh => h hh.symm

theorem runsBy_ne_nil (rows : List Row) (h : rows ≠ []) : runsBy rows ≠ [] := by
  obtain ⟨r, rs, rfl⟩ := List.exists_cons_of_ne_nil h
  exact runsAux_ne_nil rs (cell0 r) [r]

/-- `runsBy` computes the decomposition of a row list into maximal
contiguous runs of equal leading key. -/
theorem runsBy_isRunDecomposition (rows : List Row) (hne : rows ≠ []) :
    IsRunDecomposition rows (runsBy rows) := by
  obtain ⟨r, rs, rfl⟩ := List.exists_cons_of_ne_nil hne
  obtain ⟨hruns, hchain⟩ :=
    runsAux_props rs (cell0 r) [r] (by simp)
      (by intro x hx; rw [List.mem_singleton.mp hx])
  refine ⟨?_, fun run h => (hruns run h).1, fun run h => (hruns run h).2, hchain⟩
  show (runsAux (cell0 r) [r] rs).flatten = r :: rs
  rw [runsAux_flatten]
  simp

theorem isSubtotalRow_subtotalOf (run : List Row) :
    isSubtotalRow (subtotalOf run) = true := rfl

theorem isSubtotalRow_bufferRow : isSubtotalRow bufferRow = false := rfl

theorem runsBy_not_subtotal (rows : List Row) (h1 : rows ≠ [])
    (h2 : ∀ r ∈ rows, cell0 r ≠ Cell.str "Subtotal:") :
    ∀ run ∈ runsBy rows, ∀ x ∈ run, isSubtotalRow x = false := by
  intro run hrun x hx
  have hxrows : x ∈ rows := by
    rw [← (runsBy_isRunDecomposition rows h1).1]
    exact List.mem_flatten.mpr ⟨run, hrun, hx⟩
  simp [isSubtotalRow, h2 x hxrows]

theorem renderRuns_filter :
    ∀ (runs : List (List Row)),
      (∀ run ∈ runs, ∀ x ∈ run, isSubtotalRow x = false) →
      (renderRuns runs).filter isSubtotalRow = runs.map subtotalOf := by
  intro runs
  induction runs with
  | nil => intro h; rfl
  | cons run rest ih =>
    intro h
    have hrun : run.filter isSubtotalRow = [] :=
      List.filter_eq_nil_iff.mpr
        (fun a ha => by simp [h run (List.mem_cons_self _ _) a ha])
    cases rest with
    | nil =>
      show (run ++ [subtotalOf run]).filter isSubtotalRow = [subtotalOf run]
      rw [List.filter_append, hrun]
      simp [List.filter_cons, isSubtotalRow_subtotalOf]
    | cons run2 t =>
      show (run ++ subtotalOf run :: bufferRow :: renderRuns (run2 :: t)).filter
          isSubtotalRow = subtotalOf run :: (run2 :: t).map subtotalOf
      rw [List.filter_append, hrun]
      simp only [List.filter_cons, isSubtotalRow_subtotalOf, isSubtotalRow_bufferRow,
        List.nil_append]
      rw [ih (fun g hg x hx => h g (List.mem_cons_of_mem _ hg) x hx)]
      simp

theorem renderRuns_last :
    ∀ (runs : List (List Row)), runs ≠ [] →
      ∃ z, (renderRuns runs).getLast? = some z ∧ isSubtotalRow z = true := by
  intro runs
  induction runs with
  | nil => intro h; exact absurd rfl h
  | cons run rest ih =>
    intro _
    cases rest with
    | nil =>
      refine ⟨subtotalOf run, ?_, isSubtotalRow_subtotalOf run⟩
      show (run ++ [subtotalOf run]).getLast? = some (subtotalOf run)
      exact List.getLast?_concat run
    | cons run2 t =>
      obtain ⟨z, hz, hsz⟩ := ih (by simp)
      refine ⟨z, ?_, hsz⟩
      show (run ++ subtotalOf run :: bufferRow :: renderRuns (run2 :: t)).getLast?
          = some z
      rw [List.getLast?_append]
      rw [show subtotalOf run :: bufferRow :: renderRuns (run2 :: t)
          = [subtotalOf run, bufferRow] ++ renderRuns (run2 :: t) from rfl]
      rw [List.getLast?_append, hz]
      rfl

theorem renderRuns_sep :
    ∀ (runs : List (List Row)),
      (∀ run ∈ runs, ∀ x ∈ run, isSubtotalRow x = false) →
      ∀ n, n + 1 < (renderRuns runs).length →
        isSubtotalRow ((renderRuns runs).getD n []) = true →
        (renderRuns runs).getD (n + 1) [] = bufferRow := by
  intro runs
  induction runs with
  | nil => intro h n hn hs; simp [renderRuns] at hn
  | cons run rest ih =>
    intro h n hn hs
    cases rest with
    | nil =>
      exfalso
      simp only [renderRuns, List.length_append, List.length_cons, List.length_nil] at hn
      have hnr : n < run.length := by omega
      have hgd : (renderRuns [run]).getD n [] = run.getD n [] := by
        show (run ++ [subtotalOf run]).getD n [] = run.getD n []
        exact List.getD_append _ _ _ _ hnr
      rw [hgd] at hs
      have hmem : run.getD n [] ∈ run := by
        rw [List.getD_eq_getElem _ _ hnr]
        exact List.getElem_mem hnr
      rw [h run (List.mem_cons_self _ _) _ hmem] at hs
      exact Bool.noConfusion hs
    | cons run2 t =>
      have hshow : renderRuns (run :: run2 :: t)
          = run ++ subtotalOf run :: bufferRow :: renderRuns (run2 :: t) := rfl
      rw [hshow] at hn hs ⊢
      simp only [List.length_append, List.length_cons] at hn
      by_cases hc1 : n < run.length
      · exfalso
        rw [List.getD_append _ _ _ _ hc1] at hs
        have hmem : run.getD n [] ∈ run := by
          rw [List.getD_eq_getElem _ _ hc1]
          exact List.getElem_mem hc1
        rw [h run (List.mem_cons_self _ _) _ hmem] at hs
        exact Bool.noConfusion hs
      · by_cases hc2 : n = run.length
        · rw [List.getD_append_right _ _ _ _ (by omega)]
          rw [show n + 1 - run.length = 1 from by omega]
          rfl
        · by_cases hc3 : n = run.length + 1
          · exfalso
            rw [List.getD_append_right _ _ _ _ (by omega),
              show n - run.length = 1 from by omega] at hs
            exact Bool.noConfusion hs
          · have hge : run.length + 2 ≤ n := by omega
            rw [List.getD_append_right _ _ _ _ (by omega)] at hs ⊢
            rw [show n - run.length = (n - run.length - 2) + 2 from by omega] at hs
            rw [show n + 1 - run.length = (n - run.length - 2) + 3 from by omega]
            simp only [List.getD_cons_succ] at hs ⊢
            exact ih (fun g hg x hx => h g (List.mem_cons_of_mem _ hg) x hx)
              (n - run.length - 2) (by omega) hs

theorem renderRuns_sublist :
    ∀ (runs : List (List Row)), runs.flatten.Sublist (renderRuns runs) := by
  intro runs
  induction runs with
  | nil => simp [renderRuns]
  | cons run rest ih =>
    cases rest with
    | nil =>
      show (run ++ [].flatten).Sublist (run ++ [subtotalOf run])
      simp only [List.flatten_nil, List.append_nil]
      exact List.sublist_append_left run [subtotalOf run]
    | cons run2 t =>
      show (run ++ (run2 :: t).flatten).Sublist
        (run ++ subtotalOf run :: bufferRow :: renderRuns (run2 :: t))
      exact List.Sublist.append_left ((ih.cons _).cons _) run

/-- **C1.** For every non-empty group whose rows carry numeric values in
the aggregation columns (and whose data rows are not labelled like a
subtotal row), every subtotal row produced by `addSubtotals` carries, in
each aggregation column, the exact sum of that column over the maximal
contiguous run it closes: the subtotal rows of the output are exactly one
per maximal run, in order, and the runs partition the data rows, so no data
row is counted in more than one subtotal. -/
theorem claim_C1 (rows : List Row) (h1 : rows ≠ [])
    (h2 : ∀ r ∈ rows, cell0 r ≠ Cell.str "Subtotal:")
    (hnum : ∀ r ∈ rows, ∀ c ∈ ([7, 8, 10, 12] : List Nat),
      (r.getD c (Cell.str "")).isNum = true) :
    IsRunDecomposition rows (runsBy rows) ∧
    (addSubtotalsGroup rows).filter isSubtotalRow = (runsBy rows).map subtotalOf ∧
    (∀ run ∈ runsBy rows, ∀ c ∈ ([7, 8, 10, 12] : List Nat),
      (subtotalOf run).getD c (Cell.str "")
        = Cell.num (sumQ (run.map (fun r => numAt r c)))) ∧
    (∀ run ∈ runsBy rows, ∀ r ∈ run, ∀ c ∈ ([7, 8, 10, 12] : List Nat),
      (r.getD c (Cell.str "")).isNum = true) := by
  refine ⟨runsBy_isRunDecomposition rows h1, ?_, ?_, ?_⟩
  · rw [addSubtotalsGroup_eq rows h1]
    exact renderRuns_filter (runsBy rows) (runsBy_not_subtotal rows h1 h2)
  · intro run hrun c hc
    simp only [List.mem_cons, List.not_mem_nil, or_false] at hc
    rcases hc with rfl | rfl | rfl | rfl <;> rfl
  · intro run hrun r hr c hc
    have hrrows : r ∈ rows := by
      rw [← (runsBy_isRunDecomposition rows h1).1]
      exact List.mem_flatten.mpr ⟨run, hrun, hr⟩
    exact hnum r hrrows c hc

/-- Witness for C1 at a concrete one-row group. -/
theorem claim_C1_witness :
    (addSubtotalsGroup [wConv]).filter isSubtotalRow = (runsBy [wConv]).map subtotalOf := by
  have h1 : ([wConv] : List Row) ≠ [] := by decide
  have h2 : ∀ r ∈ ([wConv] : List Row), cell0 r ≠ Cell.str "Subtotal:" := by decide
  have h3 : ∀ r ∈ ([wConv] : List Row), ∀ c ∈ ([7, 8, 10, 12] : List Nat),
      (r.getD c (Cell.str "")).isNum = true := by decide
  exact (claim_C1 [wConv] h1 h2 h3).2.1

/-- **C2.** For every non-empty group (whose data rows are not labelled
like a subtotal row), the output of `addSubtotals` contains exactly one
subtotal row per maximal contiguous run of equal leading key (field 0) in
the original row order; every subtotal row except the final one is
immediately followed by a separator (buffer) row, the final row of the
output is the last subtotal (no trailing separator), and the original data
rows appear in the output in their original relative order. -/
theorem claim_C2 (rows : List Row) (h1 : rows ≠ [])
    (h2 : ∀ r ∈ rows, cell0 r ≠ Cell.str "Subtotal:") :
    IsRunDecomposition rows (runsBy rows) ∧
    (addSubtotalsGroup rows).countP isSubtotalRow = (runsBy rows).length ∧
    (∀ n, n + 1 < (addSubtotalsGroup rows).length →
      isSubtotalRow ((addSubtotalsGroup rows).getD n []) = true →
      (addSubtotalsGroup rows).getD (n + 1) [] = bufferRow) ∧
    isSubtotalRow ((addSubtotalsGroup rows).getLastD []) = true ∧
    rows.Sublist (addSubtotalsGroup rows) := by
  have hdec := runsBy_isRunDecomposition rows h1
  have hkey := runsBy_not_subtotal rows h1 h2
  rw [addSubtotalsGroup_eq rows h1]
  refine ⟨hdec, ?_, renderRuns_sep (runsBy rows) hkey, ?_, ?_⟩
  · rw [List.countP_eq_length_filter, renderRuns_filter (runsBy rows) hkey,
      List.length_map]
  · obtain ⟨z, hz, hsz⟩ := renderRuns_last (runsBy rows) (runsBy_ne_nil rows h1)
    rw [List.getLastD_eq_getLast?, hz]
    exact hsz
  · conv_lhs => rw [← hdec.1]
    exact renderRuns_sublist (runsBy rows)

/-- Witness for C2 at a concrete one-row group. -/
theorem claim_C2_witness :
    [wConv].Sublist (addSubtotalsGroup [wConv]) := by
  have h1 : ([wConv] : List Row) ≠ [] := by decide
  have h2 : ∀ r ∈ ([wConv] : List Row), cell0 r ≠ Cell.str "Subtotal:" := by decide
  exact (claim_C2 [wConv] h1 h2).2.2.2.2

/-! ## C3: diff correctness -/

/-- **C3.** For every pair of row sequences read from the two snapshot
files, the diff contains exactly those rows of the current snapshot whose
raw field tuple does not occur anywhere in the previous snapshot (with
multiplicity), and it preserves the order of the current snapshot. -/
theorem claim_C3 (oldRows newRows : List (List String)) :
    (newEntriesRaw oldRows newRows).Sublist newRows ∧
    (∀ r, r ∈ newEntriesRaw oldRows newRows ↔ r ∈ newRows ∧ r ∉ oldRows) ∧
    (∀ r, r ∉ oldRows → (newEntriesRaw oldRows newRows).count r = newRows.count r) := by
  refine ⟨List.filter_sublist _, fun r => ?_, fun r hr => ?_⟩
  · simp [newEntriesRaw, List.mem_filter]
  · exact List.count_filter (by simpa using hr)

/-- Witness for C3 at the concrete snapshots of the spec example. -/
theorem claim_C3_witness :
    (newEntriesRaw [["A", "1"]] [["A", "1"], ["B", "2"]]).count ["B", "2"]
      = [["A", "1"], ["B", "2"]].count ["B", "2"] :=
  (claim_C3 [["A", "1"]] [["A", "1"], ["B", "2"]]).2.2 ["B", "2"] (by decide)

/-! ## C4: conversion strictly after raw membership testing -/

theorem getD_set_ne {α : Type} (l : List α) (x d : α) {i j : Nat} (h : i ≠ j) :
    (l.set i x).getD j d = l.getD j d := by
  simp [List.getElem?_set_ne h]

theorem getD_set_self {α : Type} (l : List α) (x d : α) {i : Nat} (h : i < l.length) :
    (l.set i x).getD i d = x := by
  simp [List.getElem?_set_self h]

theorem getD_map_str (e : List String) (i : Nat) :
    (e.map Cell.str).getD i (Cell.str "") = Cell.str (e.getD i "") := by
  induction e generalizing i with
  | nil => simp
  | cons a t ih => cases i with
    | zero => simp
    | succ i2 =>
      simp only [List.map_cons, List.getD_cons_succ]
      exact ih i2

theorem mapM_option_spec {α β : Type} (f : α → Option β) :
    ∀ (l : List α) (res : List β), l.mapM f = some res →
      res.length = l.length ∧
      ∀ m (dα : α) (dβ : β), m < l.length → f (l.getD m dα) = some (res.getD m dβ) := by
  intro l
  induction l with
  | nil =>
    intro res h
    simp only [List.mapM_nil, pure, Option.some.injEq] at h
    subst h
    exact ⟨rfl, fun m dα dβ hm => absurd hm (by simp)⟩
  | cons a t ih =>
    intro res h
    rw [List.mapM_cons] at h
    cases hfa : f a with
    | none => rw [hfa] at h; simp at h
    | some b =>
      rw [hfa] at h
      cases hmt : t.mapM f with
      | none => rw [hmt] at h; simp at h
      | some bs =>
        rw [hmt] at h
        simp only [Option.bind_eq_bind, Option.some_bind, pure, Option.some.injEq] at h
        subst h
        obtain ⟨hl, hp⟩ := ih bs hmt
        refine ⟨by simp [hl], ?_⟩
        intro m dα dβ hm
        cases m with
        | zero => simpa using hfa
        | succ m2 => simpa using hp m2 dα dβ (by simpa using hm)

theorem convertAt_str (s : List Cell) (i : Nat) (t : String)
    (h : s.getD i (Cell.str "") = Cell.str t) :
    convertAt s i = (parseDecimal (stripCommas t)).map (fun q => s.set i (Cell.num q)) := by
  unfold convertAt
  rw [h]

/-- Characterization of the conversion loop: on success, each of the four
aggregation columns was parsed exactly once, from the raw textual value of
the entry, and the result is the raw entry with exactly those four cells
overwritten. -/
theorem convertEntry_eq (e : List String) (r : Row) (h : convertEntry e = some r) :
    ∃ q7 q8 q10 q12,
      parseDecimal (stripCommas (e.getD 7 "")) = some q7 ∧
      parseDecimal (stripCommas (e.getD 8 "")) = some q8 ∧
      parseDecimal (stripCommas (e.getD 10 "")) = some q10 ∧
      parseDecimal (stripCommas (e.getD 12 "")) = some q12 ∧
      r = ((((e.map Cell.str).set 7 (Cell.num q7)).set 8 (Cell.num q8)).set 10
            (Cell.num q10)).set 12 (Cell.num q12) := by
  unfold convertEntry at h
  simp only [List.foldlM_cons, List.foldlM_nil] at h
  rw [convertAt_str _ 7 _ (getD_map_str e 7)] at h
  cases hp7 : parseDecimal (stripCommas (e.getD 7 "")) with
  | none => rw [hp7] at h; simp at h
  | some q7 =>
  rw [hp7] at h
  simp only [Option.map_some', Option.bind_eq_bind, Option.some_bind] at h
  rw [convertAt_str _ 8 _ (by rw [getD_set_ne _ _ _ (by omega)]; exact getD_map_str e 8)] at h
  cases hp8 : parseDecimal (stripCommas (e.getD 8 "")) with
  | none => rw [hp8] at h; simp at h
  | some q8 =>
  rw [hp8] at h
  simp only [Option.map_some', Option.bind_eq_bind, Option.some_bind] at h
  rw [convertAt_str _ 10 _ (by
    rw [getD_set_ne _ _ _ (by omega), getD_set_ne _ _ _ (by omega)]
    exact getD_map_str e 10)] at h
  cases hp10 : parseDecimal (stripCommas (e.getD 10 "")) with
  | none => rw [hp10] at h; simp at h
  | some q10 =>
  rw [hp10] at h
  simp only [Option.map_some', Option.bind_eq_bind, Option.some_bind] at h
  rw [convertAt_str _ 12 _ (by
    rw [getD_set_ne _ _ _ (by omega), getD_set_ne _ _ _ (by omega),
      getD_set_ne _ _ _ (by omega)]
    exact getD_map_str e 12)] at h
  cases hp12 : parseDecimal (stripCommas (e.getD 12 "")) with
  | none => rw [hp12] at h; simp at h
  | some q12 =>
  rw [hp12] at h
  simp only [Option.map_some', Option.bind_eq_bind, Option.some_bind, pure,
    Option.some.injEq] at h
  exact ⟨q7, q8, q10, q12, rfl, rfl, rfl, rfl, h.symm⟩

/-- **C4.** Membership testing of each current-snapshot row uses the
untouched raw textual tuple; the numeric conversion of the aggregation
columns (strip commas, parse as signed decimal, indices 7, 8, 10, 12) is
applied exactly once per new entry, strictly after the membership test
(each converted cell is the parse of the raw text, all other cells are the
raw text); rows that are not new entries never contribute — the result
depends only on the raw diff. -/
theorem claim_C4 (oldRows newRows : List (List String)) (res : List Row)
    (h : getNewEntries oldRows newRows = some res) :
    res.length = (newEntriesRaw oldRows newRows).length ∧
    (∀ m, m < res.length →
      (newEntriesRaw oldRows newRows).getD m [] ∈ newRows ∧
      (newEntriesRaw oldRows newRows).getD m [] ∉ oldRows ∧
      convertEntry ((newEntriesRaw oldRows newRows).getD m []) = some (res.getD m [])) ∧
    (∀ e r, convertEntry e = some r →
      (∀ i, i ∈ ([7, 8, 10, 12] : List Nat) →
        ∃ q, parseDecimal (stripCommas (e.getD i "")) = some q ∧
          r.getD i (Cell.str "") = Cell.num q) ∧
      (∀ i, i ∉ ([7, 8, 10, 12] : List Nat) →
        r.getD i (Cell.str "") = Cell.str (e.getD i ""))) ∧
    (∀ oldRows2 newRows2,
      newEntriesRaw oldRows2 newRows2 = newEntriesRaw oldRows newRows →
      getNewEntries oldRows2 newRows2 = getNewEntries oldRows newRows) := by
  obtain ⟨hlen, hpt⟩ := mapM_option_spec convertEntry (newEntriesRaw oldRows newRows) res h
  refine ⟨hlen, ?_, ?_, ?_⟩
  · intro m hm
    have hm2 : m < (newEntriesRaw oldRows newRows).length := hlen ▸ hm
    have hcv := hpt m [] [] hm2
    have hmem : (newEntriesRaw oldRows newRows).getD m [] ∈ newEntriesRaw oldRows newRows := by
      rw [List.getD_eq_getElem _ _ hm2]
      exact List.getElem_mem hm2
    simp only [newEntriesRaw, List.mem_filter, decide_eq_true_eq] at hmem
    exact ⟨hmem.1, hmem.2, hcv⟩
  · intro e r hconv
    obtain ⟨q7, q8, q10, q12, hp7, hp8, hp10, hp12, hr⟩ := convertEntry_eq e r hconv
    have hempty : parseDecimal (stripCommas "") = none := by decide
    have hlen7 : 7 < e.length := by
      by_contra hc
      rw [List.getD_eq_default _ _ (by omega), hempty] at hp7
      exact Option.noConfusion hp7
    have hlen8 : 8 < e.length := by
      by_contra hc
      rw [List.getD_eq_default _ _ (by omega), hempty] at hp8
      exact Option.noConfusion hp8
    have hlen10 : 10 < e.length := by
      by_contra hc
      rw [List.getD_eq_default _ _ (by omega), hempty] at hp10
      exact Option.noConfusion hp10
    have hlen12 : 12 < e.length := by
      by_contra hc
      rw [List.getD_eq_default _ _ (by omega), hempty] at hp12
      exact Option.noConfusion hp12
    constructor
    · intro i hi
      simp only [List.mem_cons, List.not_mem_nil, or_false] at hi
      rcases hi with rfl | rfl | rfl | rfl
      · refine ⟨q7, hp7, ?_⟩
        subst hr
        rw [getD_set_ne _ _ _ (by omega), getD_set_ne _ _ _ (by omega),
          getD_set_ne _ _ _ (by omega)]
        exact getD_set_self _ _ _ (by simpa using hlen7)
      · refine ⟨q8, hp8, ?_⟩
        subst hr
        rw [getD_set_ne _ _ _ (by omega), getD_set_ne _ _ _ (by omega)]
        exact getD_set_self _ _ _ (by simpa using hlen8)
      · refine ⟨q10, hp10, ?_⟩
        subst hr
        rw [getD_set_ne _ _ _ (by omega)]
        exact getD_set_self _ _ _ (by simpa using hlen10)
      · refine ⟨q12, hp12, ?_⟩
        subst hr
        exact getD_set_self _ _ _ (by simpa using hlen12)
    · intro i hi
      simp only [List.mem_cons, List.not_mem_nil, or_false, not_or] at hi
      obtain ⟨hi7, hi8, hi10, hi12⟩ := hi
      subst hr
      rw [getD_set_ne _ _ _ (fun hh => hi12 hh.symm),
        getD_set_ne _ _ _ (fun hh => hi10 hh.symm),
        getD_set_ne _ _ _ (fun hh => hi8 hh.symm),
        getD_set_ne _ _ _ (fun hh => hi7 hh.symm)]
      exact getD_map_str e i
  · intro oldRows2 newRows2 heq
    unfold getNewEntries
    rw [heq]

/-- Witness for C4 at a concrete snapshot pair. -/
theorem claim_C4_witness :
    [wConv].length = (newEntriesRaw [] [wRaw]).length :=
  (claim_C4 [] [wRaw] [wConv] (by decide)).1

/-! ## C5: grouping completeness -/

theorem update_map_fst (d : List (String × List Row)) (k0 : String) (row : Row) :
    (d.map (fun p => if p.1 = k0 then (p.1, p.2 ++ [row]) else p)).map Prod.fst
      = d.map Prod.fst := by
  rw [List.map_map]
  refine List.map_congr_left ?_
  intro p _
  by_cases hp : p.1 = k0 <;> simp [hp]

theorem splitStep_map_fst (d : List (String × List Row)) (row : Row) :
    (splitStep d row).map Prod.fst =
      if saleKey row ∈ d.map Prod.fst then d.map Prod.fst
      else d.map Prod.fst ++ [saleKey row] := by
  unfold splitStep
  by_cases hk : saleKey row ∈ d.map Prod.fst
  · rw [if_pos hk, if_pos hk]
    exact update_map_fst d (saleKey row) row
  · rw [if_neg hk, if_neg hk]
    simp

theorem foldl_splitStep_map_fst :
    ∀ (rows : List Row) (d : List (String × List Row)),
      (rows.foldl splitStep d).map Prod.fst = firstKeysFrom rows (d.map Prod.fst) := by
  intro rows
  induction rows with
  | nil => intro d; rfl
  | cons r rs ih =>
    intro d
    rw [List.foldl_cons, ih]
    show firstKeysFrom rs ((splitStep d r).map Prod.fst) = firstKeysFrom (r :: rs) (d.map Prod.fst)
    rw [splitStep_map_fst]
    rfl

theorem firstKeysFrom_nodup :
    ∀ (rows : List Row) (ks : List String), ks.Nodup → (firstKeysFrom rows ks).Nodup := by
  intro rows
  induction rows with
  | nil => intro ks h; exact h
  | cons r rs ih =>
    intro ks h
    show (firstKeysFrom rs (if saleKey r ∈ ks then ks else ks ++ [saleKey r])).Nodup
    by_cases hk : saleKey r ∈ ks
    · rw [if_pos hk]; exact ih ks h
    · rw [if_neg hk]
      exact ih _ (by simp [List.nodup_append, h, hk])

theorem firstKeysFrom_subset :
    ∀ (rows : List Row) (ks : List String), ks ⊆ firstKeysFrom rows ks := by
  intro rows
  induction rows with
  | nil => intro ks a ha; exact ha
  | cons r rs ih =>
    intro ks a ha
    show a ∈ firstKeysFrom rs (if saleKey r ∈ ks then ks else ks ++ [saleKey r])
    by_cases hk : saleKey r ∈ ks
    · rw [if_pos hk]; exact ih ks ha
    · rw [if_neg hk]; exact ih (ks ++ [saleKey r]) (List.mem_append_left _ ha)

theorem mem_firstKeysFrom :
    ∀ (rows : List Row) (ks : List String) (r : Row), r ∈ rows →
      saleKey r ∈ firstKeysFrom rows ks := by
  intro rows
  induction rows with
  | nil => intro ks r h; exact absurd h (List.not_mem_nil r)
  | cons r0 rs ih =>
    intro ks r h
    show saleKey r ∈ firstKeysFrom rs (if saleKey r0 ∈ ks then ks else ks ++ [saleKey r0])
    rcases List.mem_cons.mp h with rfl | h2
    · by_cases hk : saleKey r ∈ ks
      · rw [if_pos hk]; exact firstKeysFrom_subset rs ks hk
      · rw [if_neg hk]; exact firstKeysFrom_subset rs _ (by simp)
    · by_cases hk : saleKey r0 ∈ ks
      · rw [if_pos hk]; exact ih ks r h2
      · rw [if_neg hk]; exact ih _ r h2

theorem foldl_splitStep_groups :
    ∀ (rows : List Row) (d : List (String × List Row)) (k : String) (g : List Row),
      (k, g) ∈ rows.foldl splitStep d →
      (∃ g0, (k, g0) ∈ d ∧ g = g0 ++ rows.filter (fun r => saleKey r == k)) ∨
      (k ∉ d.map Prod.fst ∧ g = rows.filter (fun r => saleKey r == k) ∧ g ≠ []) := by
  intro rows
  induction rows with
  | nil =>
    intro d k g h
    exact Or.inl ⟨g, h, by simp⟩
  | cons r rs ih =>
    intro d k g h
    rw [List.foldl_cons] at h
    unfold splitStep at h
    by_cases hk : saleKey r ∈ d.map Prod.fst
    · rw [if_pos hk] at h
      rcases ih _ k g h with ⟨g0, hg0, hg⟩ | ⟨hnk, hg, hne⟩
      · rw [List.mem_map] at hg0
        obtain ⟨p, hp, hpe⟩ := hg0
        by_cases hpk : p.1 = saleKey r
        · rw [if_pos hpk] at hpe
          have hk1 : p.1 = k := congrArg Prod.fst hpe
          have hg02 : p.2 ++ [r] = g0 := congrArg Prod.snd hpe
          refine Or.inl ⟨p.2, ?_, ?_⟩
          · rw [← hk1]; exact hp
          · have hkey : (saleKey r == k) = true := by
              rw [← hk1, ← hpk]; simp
            rw [hg, ← hg02, List.filter_cons, hkey]
            simp
        · rw [if_neg hpk] at hpe
          refine Or.inl ⟨g0, hpe ▸ hp, ?_⟩
          have hk1 : p.1 = k := congrArg Prod.fst hpe
          have hkey : (saleKey r == k) = false := by
            rw [← hk1]
            exact beq_eq_false_iff_ne.mpr (fun hh => hpk hh.symm)
          rw [hg, List.filter_cons, hkey]
          simp
      · rw [update_map_fst] at hnk
        have hkne : saleKey r ≠ k := fun hh => hnk (hh ▸ hk)
        refine Or.inr ⟨hnk, ?_, hne⟩
        rw [hg, List.filter_cons, beq_eq_false_iff_ne.mpr hkne]
        simp
    · rw [if_neg hk] at h
      rcases ih _ k g h with ⟨g0, hg0, hg⟩ | ⟨hnk, hg, hne⟩
      · rw [List.mem_append] at hg0
        rcases hg0 with hg0d | hg0new
        · have hkd : k ∈ d.map Prod.fst := by
            rw [List.mem_map]; exact ⟨(k, g0), hg0d, rfl⟩
          have hkne : saleKey r ≠ k := fun hh => hk (hh ▸ hkd)
          refine Or.inl ⟨g0, hg0d, ?_⟩
          rw [hg, List.filter_cons, beq_eq_false_iff_ne.mpr hkne]
          simp
        · simp only [List.mem_singleton, Prod.mk.injEq] at hg0new
          obtain ⟨hkk, hgg⟩ := hg0new
          subst hkk
          refine Or.inr ⟨hk, ?_, ?_⟩
          · rw [hg, hgg, List.filter_cons]
            simp
          · rw [hg, hgg]; simp
      · simp only [List.map_append, List.map_cons, List.map_nil, List.mem_append,
          List.mem_singleton, not_or] at hnk
        obtain ⟨hnk1, hnk2⟩ := hnk
        have hkne : saleKey r ≠ k := fun hh => hnk2 hh.symm
        refine Or.inr ⟨hnk1, ?_, hne⟩
        rw [hg, List.filter_cons, beq_eq_false_iff_ne.mpr hkne]
        simp

theorem splitBySaleType_groups (rows : List Row) (k : String) (g : List Row)
    (h : (k, g) ∈ splitBySaleType rows) :
    g = rows.filter (fun r => saleKey r == k) ∧ g ≠ [] := by
  rcases foldl_splitStep_groups rows [] k g h with ⟨g0, hg0, _⟩ | ⟨_, hg, hne⟩
  · exact absurd hg0 (List.not_mem_nil _)
  · exact ⟨hg, hne⟩

theorem perm_of_partition :
    ∀ (d : List (String × List Row)) (rows : List Row),
      (d.map Prod.fst).Nodup →
      (∀ p ∈ d, p.2 = rows.filter (fun r => saleKey r == p.1)) →
      (∀ r ∈ rows, saleKey r ∈ d.map Prod.fst) →
      ((d.map Prod.snd).flatten).Perm rows := by
  intro d
  induction d with
  | nil =>
    intro rows _ _ hcov
    have hempty : rows = [] := by
      cases rows with
      | nil => rfl
      | cons a t => exact absurd (hcov a (List.mem_cons_self a t)) (List.not_mem_nil _)
    simp [hempty]
  | cons p d2 ih =>
    intro rows hnd hflt hcov
    obtain ⟨k, g⟩ := p
    simp only [List.map_cons, List.flatten_cons]
    have hg : g = rows.filter (fun r => saleKey r == k) :=
      hflt (k, g) (List.mem_cons_self _ _)
    have hnd2 : (d2.map Prod.fst).Nodup := (List.nodup_cons.mp (by simpa using hnd)).2
    have hknotin : k ∉ d2.map Prod.fst := (List.nodup_cons.mp (by simpa using hnd)).1
    have hperm2 : ((d2.map Prod.snd).flatten).Perm
        (rows.filter (fun r => !(saleKey r == k))) := by
      refine ih _ hnd2 ?_ ?_
      · intro p2 hp2
        have hp2k : p2.1 ≠ k := by
          intro hh
          exact hknotin (hh ▸ (List.mem_map.mpr ⟨p2, hp2, rfl⟩))
        rw [hflt p2 (List.mem_cons_of_mem _ hp2), List.filter_filter]
        refine List.filter_congr ?_
        intro r _
        by_cases hkr : saleKey r = p2.1
        · have : (saleKey r == k) = false :=
            beq_eq_false_iff_ne.mpr (fun hh => hp2k (hkr ▸ hh))
          simp [hkr, this, hp2k]
        · simp [beq_eq_false_iff_ne.mpr hkr]
      · intro r hr
        rw [List.mem_filter] at hr
        have hcr := hcov r hr.1
        simp only [List.map_cons] at hcr
        rcases List.mem_cons.mp hcr with hh | hh
        · exfalso
          have := hr.2
          rw [hh] at this
          simp at this
        · exact hh
    have h1 : (g ++ (d2.map Prod.snd).flatten).Perm
        (rows.filter (fun r => saleKey r == k)
          ++ rows.filter (fun r => !(saleKey r == k))) := by
      rw [hg]; exact hperm2.append_left _
    exact h1.trans (List.filter_append_perm _ rows)

/-- **C5.** `splitBySaleType` places each row in exactly one group, keyed
by the two-character prefix of its leading field; no group is empty; each
group preserves the relative input order of its rows (it equals the filter
of the input by its key); iteration visits groups in order of first key
occurrence; and concatenating all groups in iteration order is a
permutation of the input partitioned by key. -/
theorem claim_C5 (rows : List Row) :
    ((splitBySaleType rows).map Prod.fst).Nodup ∧
    (∀ p ∈ splitBySaleType rows,
      p.2 = rows.filter (fun r => saleKey r == p.1) ∧ p.2 ≠ []) ∧
    (∀ r ∈ rows, saleKey r ∈ (splitBySaleType rows).map Prod.fst) ∧
    (splitBySaleType rows).map Prod.fst = firstKeys rows ∧
    (((splitBySaleType rows).map Prod.snd).flatten).Perm rows := by
  have hfst : (splitBySaleType rows).map Prod.fst = firstKeys rows :=
    foldl_splitStep_map_fst rows []
  have hnd : ((splitBySaleType rows).map Prod.fst).Nodup := by
    rw [hfst]; exact firstKeysFrom_nodup rows [] List.nodup_nil
  have hgrp : ∀ p ∈ splitBySaleType rows,
      p.2 = rows.filter (fun r => saleKey r == p.1) ∧ p.2 ≠ [] := by
    intro p hp
    obtain ⟨k, g⟩ := p
    exact splitBySaleType_groups rows k g hp
  have hcov : ∀ r ∈ rows, saleKey r ∈ (splitBySaleType rows).map Prod.fst := by
    intro r hr
    rw [hfst]
    exact mem_firstKeysFrom rows [] r hr
  exact ⟨hnd, hgrp, hcov, hfst,
    perm_of_partition (splitBySaleType rows) rows hnd (fun p hp => (hgrp p hp).1) hcov⟩

/-- Witness for C5 at a concrete converted entry. -/
theorem claim_C5_witness :
    saleKey wConv ∈ (splitBySaleType [wConv]).map Prod.fst :=
  (claim_C5 [wConv]).2.2.1 wConv (List.mem_cons_self wConv [])

/-! ## C6 and C7: dispatch, master report and rotation -/

theorem dispatchLoop_ok_spec (f : String → Bool) :
    ∀ (gs : List (String × List Row)) (st : RunState) (master : List Row)
      (st1 : RunState) (m1 : List Row),
      dispatchLoop f gs st master = Except.ok (st1, m1) →
      st1.fs = st.fs ∧ st1.sent = st.sent ++ gs ∧
      m1 = master ++ (gs.map (fun p => p.2 ++ [masterSeparatorRow])).flatten ∧
      ∀ p ∈ gs, f p.1 = true := by
  intro gs
  induction gs with
  | nil =>
    intro st master st1 m1 h
    simp only [dispatchLoop, Except.ok.injEq, Prod.mk.injEq] at h
    obtain ⟨h1, h2⟩ := h
    subst h1 h2
    simp
  | cons p rest ih =>
    intro st master st1 m1 h
    obtain ⟨k, g⟩ := p
    simp only [dispatchLoop] at h
    cases hlk : lookupRecipients k with
    | none => rw [hlk] at h; exact absurd h (by simp)
    | some recips =>
      rw [hlk] at h
      by_cases hs : f k
      · rw [if_pos hs] at h
        obtain ⟨h1, h2, h3, h4⟩ := ih _ _ _ _ h
        refine ⟨h1, ?_, ?_, ?_⟩
        · rw [h2]; simp
        · rw [h3]; simp
        · intro p hp
          rcases List.mem_cons.mp hp with rfl | hp2
          · exact hs
          · exact h4 p hp2
      · rw [if_neg hs] at h; exact absurd h (by simp)

theorem dispatchLoop_error_fs (f : String → Bool) :
    ∀ (gs : List (String × List Row)) (st : RunState) (master : List Row)
      (st1 : RunState),
      dispatchLoop f gs st master = Except.error st1 → st1.fs = st.fs := by
  intro gs
  induction gs with
  | nil => intro st master st1 h; simp [dispatchLoop] at h
  | cons p rest ih =>
    intro st master st1 h
    obtain ⟨k, g⟩ := p
    simp only [dispatchLoop] at h
    cases hlk : lookupRecipients k with
    | none =>
      rw [hlk] at h
      simp only [Except.error.injEq] at h
      rw [← h]
    | some recips =>
      rw [hlk] at h
      by_cases hs : f k
      · rw [if_pos hs] at h
        have h2 := ih _ _ _ h
        exact h2
      · rw [if_neg hs] at h
        simp only [Except.error.injEq] at h
        rw [← h]

/-- **C6.** If any pipeline stage raises, `old.csv` is left unchanged and
no rotation occurs; the rotation (delete `old.csv`, rename `new.csv` to
`old.csv`) is performed only on the success path, which requires every
group dispatch and the master dispatch to have succeeded. -/
theorem claim_C6 (env : Env) (fs : FS) :
    (∀ st, mainPipeline env fs = Except.error st → st.fs.oldCsv = fs.oldCsv) ∧
    (∀ st, mainPipeline env fs = Except.ok st →
      env.masterSendOk = true ∧
      ∃ rows headers oldRows entries,
        env.sqlResult = some (rows, headers) ∧
        fs.oldCsv = some oldRows ∧
        getNewEntries oldRows (headers :: rows) = some entries ∧
        (∀ p ∈ addSubtotals (splitBySaleType entries), env.groupSendOk p.1 = true) ∧
        st.fs.oldCsv = some (headers :: rows) ∧ st.fs.newCsv = none) := by
  constructor
  · intro st h
    simp only [mainPipeline] at h
    split at h
    · split at h
      · simp only [Except.error.injEq] at h; rw [← h]
      · split at h
        · simp only [Except.error.injEq] at h; rw [← h]
        · split at h
          · simp only [Except.error.injEq] at h; rw [← h]
          · split at h
            · rename_i st1 heq
              have hfs1 := dispatchLoop_error_fs _ _ _ _ _ heq
              simp only [Except.error.injEq] at h
              rw [← h, hfs1]
            · rename_i st1 master1 heq
              have hfs1 := (dispatchLoop_ok_spec _ _ _ _ _ _ heq).1
              split at h
              · simp only [Except.error.injEq] at h
                rw [← h, hfs1]
              · split at h
                · simp at h
                · simp only [Except.error.injEq] at h
                  rw [← h, hfs1]
    · simp only [Except.error.injEq] at h; rw [← h]
  · intro st h
    simp only [mainPipeline] at h
    split at h
    · split at h
      · simp at h
      · rename_i rows headers hsql
        split at h
        · simp at h
        · rename_i oldRows holdeq
          split at h
          · simp at h
          · rename_i entries hentries
            split at h
            · simp at h
            · rename_i st1 master1 heq
              split at h
              · simp at h
              · split at h
                · rename_i hmaster
                  simp only [Except.ok.injEq] at h
                  obtain ⟨hfs1, hsent1, hm1, hall⟩ :=
                    dispatchLoop_ok_spec _ _ _ _ _ _ heq
                  refine ⟨hmaster, rows, headers, oldRows, entries, hsql, holdeq,
                    hentries, hall, ?_, ?_⟩
                  · rw [← h]
                    simp [renameFiles, hfs1]
                  · rw [← h]
                    simp [renameFiles, hfs1]
                · simp at h
    · simp at h

/-- **C7 counterexample.** With a single group the master accumulator ends
with a trailing `'~~~~~~'` separator row after the final group, so the
separator is not inserted only *between* consecutive groups as claimed. -/
theorem claim_C7_counterexample :
    dispatchLoop (fun _ => true) [("CV", [wConv])] ⟨⟨none, none⟩, []⟩ []
      = Except.ok (⟨⟨none, none⟩, [("CV", [wConv])]⟩, [wConv, masterSeparatorRow]) ∧
    [wConv, masterSeparatorRow] ≠ (([[wConv]].intersperse [masterSeparatorRow]).flatten) := by
  exact ⟨rfl, by decide⟩

/-- **C7 as amended.** The master report is the concatenation, in group
iteration order, of every group's rows followed by one inter-group
separator row (`'~~~~~~' * 14`, distinct from the intra-group buffer row),
including a trailing separator after the final group; each group produces
exactly one dispatched artifact, and exactly one master artifact is
dispatched, last. -/
theorem claim_C7 (env : Env) (fs : FS) (st : RunState)
    (h : mainPipeline env fs = Except.ok st) :
    ∃ rows headers oldRows entries,
      env.sqlResult = some (rows, headers) ∧
      fs.oldCsv = some oldRows ∧
      getNewEntries oldRows (headers :: rows) = some entries ∧
      st.sent = addSubtotals (splitBySaleType entries) ++
        [("master",
          ((addSubtotals (splitBySaleType entries)).map
            (fun p => p.2 ++ [masterSeparatorRow])).flatten)] := by
  simp only [mainPipeline] at h
  split at h
  · split at h
    · simp at h
    · rename_i rows headers hsql
      split at h
      · simp at h
      · rename_i oldRows holdeq
        split at h
        · simp at h
        · rename_i entries hentries
          split at h
          · simp at h
          · rename_i st1 master1 heq
            split at h
            · simp at h
            · split at h
              · simp only [Except.ok.injEq] at h
                obtain ⟨hfs1, hsent1, hm1, hall⟩ :=
                  dispatchLoop_ok_spec _ _ _ _ _ _ heq
                refine ⟨rows, headers, oldRows, entries, hsql, holdeq, hentries, ?_⟩
                rw [← h]
                simp only [hsent1, hm1]
                simp
              · simp at h
  · simp at h

/-- Witness for C6 at a concrete run whose master dispatch fails: the
previous snapshot is untouched. -/
theorem claim_C6_witness : wStFail.fs.oldCsv = wFS.oldCsv :=
  (claim_C6 wEnvFail wFS).1 wStFail (by rfl)

/-- Witness for C7 (amended) at a concrete fully successful run. -/
theorem claim_C7_witness :
    ∃ rows headers oldRows entries,
      wEnv.sqlResult = some (rows, headers) ∧
      wFS.oldCsv = some oldRows ∧
      getNewEntries oldRows (headers :: rows) = some entries ∧
      wSt.sent = addSubtotals (splitBySaleType entries) ++
        [("master",
          ((addSubtotals (splitBySaleType entries)).map
            (fun p => p.2 ++ [masterSeparatorRow])).flatten)] :=
  claim_C7 wEnv wFS wSt (by rfl)

/-! ## C10: exit codes -/

/-- **C10.** Every run terminates through `logAndExit` with exit status 0
exactly when the pipeline completed without an exception and 1 exactly when
a stage raised; the exit code depends only on whether an exception was
passed in, never on the outcome of the log write. -/
theorem claim_C10 :
    (∀ isError lf1 lf2 ts tr log,
      (logAndExit isError lf1 ts tr log).1 = (logAndExit isError lf2 ts tr log).1) ∧
    (∀ isError lf ts tr log,
      (logAndExit isError lf ts tr log).1 = if isError then 1 else 0) ∧
    (∀ env fs lf ts tr log,
      ((mainRun env fs lf ts tr log).2.1 = 0 ↔ ∃ st, mainPipeline env fs = Except.ok st) ∧
      ((mainRun env fs lf ts tr log).2.1 = 1 ↔ ∃ st, mainPipeline env fs = Except.error st)) := by
  refine ⟨?_, ?_, ?_⟩
  · intro isError lf1 lf2 ts tr log
    cases lf1 <;> cases lf2 <;> rfl
  · intro isError lf ts tr log
    cases lf <;> rfl
  · intro env fs lf ts tr log
    cases h : mainPipeline env fs <;> cases lf <;>
      simp [mainRun, h, logAndExit]

/-! ## C8: numeric parse / re-format round trip (corrected) -/

/-- **C8 counterexample.** Parsing the formatted field `"1,234.50"` yields
`1234.50`, but serializing that number for the report artifact renders the
plain float form `"1234.5"` — without grouping separators or two fixed
decimal places — so the parse-then-format round trip is not the identity. -/
theorem claim_C8_counterexample :
    parseDecimal (stripCommas "1,234.50") = some (mkQ 2469 2) ∧
    cellRender (Cell.num (mkQ 2469 2)) = "1234.5" ∧
    cellRender (Cell.num (mkQ 2469 2)) ≠ "1,234.50" := by
  refine ⟨by decide, by decide, by decide⟩

/-- **C8 as amended.** Parsing `"1,234.50"` yields `1234.50`; re-formatting
for the serialized artifact yields the plain decimal float form `"1234.5"`
(no grouping separators, trailing zeros stripped, at least one fractional
digit), so the round trip is not the identity; raw textual fields are
serialized unchanged (modulo CSV quoting). -/
theorem claim_C8 :
    parseDecimal (stripCommas "1,234.50") = some (mkQ 2469 2) ∧
    createAttachment ["Amount"] [[Cell.num (mkQ 2469 2)]] = "Amount\r\n1234.5\r\n" ∧
    createAttachment ["Amount"] [[Cell.num (mkQ 2469 2)]]
      ≠ "Amount\r\n\"1,234.50\"\r\n" ∧
    (∀ s, cellRender (Cell.str s) = s) := by
  refine ⟨by decide, by decide, by decide, fun s => rfl⟩

/-! ## C9: recipient resolution for unmapped group keys (corrected) -/

/-- **C9 counterexample.** The group key `"XX"` has no mapping in
`recipientsDict`, and instead of falling back to a default recipient set
the dispatcher raises (`KeyError`), aborting the run with nothing
dispatched for that group. -/
theorem claim_C9_counterexample :
    lookupRecipients "XX" = none ∧
    dispatchLoop (fun _ => true) [("XX", [bufferRow])] ⟨⟨none, none⟩, []⟩ []
      = Except.error ⟨⟨none, none⟩, []⟩ := by
  exact ⟨rfl, rfl⟩

/-- **C9 as amended.** Only the keys `CV`, `VT`, `CC`, `PM` and `master`
are mapped; a group key with no explicit mapping makes the recipient lookup
raise, aborting the run before that group's report (or any later one) is
dispatched — there is no default/unassigned fallback recipient set. -/
theorem claim_C9 :
    (∀ k, (lookupRecipients k).isSome = true ↔ k ∈ ["CV", "VT", "CC", "PM", "master"]) ∧
    (∀ (sendOk : String → Bool) k g rest st master, lookupRecipients k = none →
      dispatchLoop sendOk ((k, g) :: rest) st master = Except.error st) := by
  constructor
  · intro k
    simp [lookupRecipients, recipientsDict, List.find?_isSome]
    constructor
    · rintro (h | h | h | h | h) <;> simp [h]
    · rintro (h | h | h | h | h) <;> simp [h]
  · intro sendOk k g rest st master h
    simp [dispatchLoop, h]

/-- Witness for C9 (amended) at the concrete unmapped key `"XX"`. -/
theorem claim_C9_witness :
    dispatchLoop (fun _ => true) [("XX", [])] ⟨⟨none, none⟩, []⟩ []
      = Except.error ⟨⟨none, none⟩, []⟩ :=
  claim_C9.2 (fun _ => true) "XX" [] [] ⟨⟨none, none⟩, []⟩ [] rfl

end PaidStatements
